import Mathlib

set_option maxHeartbeats 1000000

/-!
Shallow embedding of the sync engine in src/canvas_notion_sync.py.

Modelling conventions:
* Instants are integers counting minutes since an arbitrary UTC epoch.
  A zoned datetime produced by the script is represented by its absolute
  UTC instant; the configured civil time zone is a fixed offset in minutes
  (the default zone of the script, America/Phoenix, has no DST), and the local
  wall-clock reading of an instant is obtained by adding that offset.
* A source timestamp string is represented by the inductive TimeInput:
  absent null input, the empty string, a parseable timestamp carrying its
  naive wall-clock value and optional UTC offset, or a malformed string on
  which dateutil raises.
* Notion is modelled as a list of pages, each a page id plus an
  association list from property names to wire values; the query
  notion.databases.query with an equals filter on the hidden Key column
  is the first page whose Key property equals the key; pages.update
  merges the given properties into the page, pages.create appends a fresh
  page.  Remote calls are modelled as always succeeding; an HTTP fetch
  that the script performs is an Except value supplied as input, error
  meaning requests raised for that fetch.
* Python truthiness of optional strings (None and the empty string are
  falsy) is modelled by strTruthy and pyOr.
-/

/-- Wire value of a single Notion property as the script builds it.  A date
property stores the due instant (the script stores its isoformat, which is
determined by the instant and the fixed zone). -/
inductive PropValue where
  | titleV (s : String)
  | richTextV (s : String)
  | dateV (startInstant : Int)
  | selectV (name : String)
  | statusV (name : String)
  | urlV (s : String)
deriving DecidableEq

/-- A Notion properties payload: association list from property names to
values, in the order the script builds them. -/
abbrev Props := List (String × PropValue)

/-- First value bound to a property name, like reading one key of the
properties dict. -/
def getProp (props : Props) (name : String) : Option PropValue :=
  (props.find? (fun nv => decide (nv.1 = name))).map (fun nv => nv.2)

/-- Rebind one property name, replacing the first existing binding or
appending; one key-update of the properties dict. -/
def setProp (props : Props) (name : String) (v : PropValue) : Props :=
  match props with
  | [] => [(name, v)]
  | (n, w) :: rest => if n = name then (n, v) :: rest else (n, w) :: setProp rest name v

/-- Merge a payload into existing page properties, as notion.pages.update
does: every name bound in the payload is overwritten, all others kept. -/
def applyProps (old new : Props) : Props :=
  new.foldl (fun acc nv => setProp acc nv.1 nv.2) old

/-- One destination page: Notion page id and its properties. -/
structure Page where
  id : Nat
  props : Props
deriving DecidableEq

/-- The destination database: its pages in creation order, plus the next
fresh page id handed out on create. -/
structure NotionDB where
  pages : List Page
  nextId : Nat
deriving DecidableEq

def emptyDB : NotionDB := ⟨[], 0⟩

/-- Whether a page matches the exact-match query filter on the hidden Key
rich_text column (lines 214-218 of the source). -/
def pageHasKey (key : String) (p : Page) : Bool :=
  decide (getProp p.props "Key" = some (PropValue.richTextV key))

/-- find_by_key (source lines 209-224): query the database for the first
page whose Key property equals the key, returning its page id. -/
def find_by_key (db : NotionDB) (key : String) : Option Nat :=
  match db.pages.find? (pageHasKey key) with
  | some p => some p.id
  | none => none

/-- upsert_page (source lines 226-234): update the page when a page id is
given, otherwise create a new page with the payload. -/
def upsert_page (props : Props) (page_id : Option Nat) (db : NotionDB) : NotionDB :=
  match page_id with
  | some pid =>
      ⟨db.pages.map (fun p => if p.id = pid then ⟨p.id, applyProps p.props props⟩ else p),
       db.nextId⟩
  | none => ⟨db.pages ++ [⟨db.nextId, props⟩], db.nextId + 1⟩

/-- A source timestamp string as classified by dateutil: absent (None),
empty, parseable with naive wall-clock minutes and optional UTC offset in
minutes, or malformed (dateutil raises). -/
inductive TimeInput where
  | noneT
  | emptyT
  | parseableT (wall : Int) (offset : Option Int)
  | malformedT
deriving DecidableEq

/-- parse_canvas_time (source lines 119-125): falsy input gives no value;
a parseable timestamp without offset is assumed UTC (offset 0); a
malformed timestamp raises, modelled as the error case.  The result is
the absolute UTC instant (conversion with astizone changes only the
representation, not the instant). -/
def parse_canvas_time : TimeInput → Except Unit (Option Int)
  | .noneT => .ok none
  | .emptyT => .ok none
  | .parseableT wall offset => .ok (some (wall - offset.getD 0))
  | .malformedT => .error ()

/-- Engine configuration drawn from the environment: Canvas base URL, the
UTC offset of the configured zone in minutes, and the course-name override map. -/
structure Config where
  baseUrl : String
  tzOffset : Int
  overrides : List (Nat × String)
deriving DecidableEq

/-- Local wall-clock minutes of an instant in the configured zone. -/
def localWall (cfg : Config) (t : Int) : Int := t + cfg.tzOffset

/-- time_str (source lines 127-128): strftime I:M p on the local reading
of the instant, with the leading zero of the hour stripped. -/
def time_str (cfg : Config) (t : Int) : String :=
  let m : Nat := ((localWall cfg t).emod 1440).toNat
  let h := m / 60
  let mi := m % 60
  let h12 := if h % 12 = 0 then 12 else h % 12
  let half := if h < 12 then "AM" else "PM"
  toString h12 ++ ":" ++ (if mi < 10 then "0" ++ toString mi else toString mi) ++ " " ++ half

/-- Horizon start in main (source line 347): now minus seven days. -/
def horizon_start (now : Int) : Int := now - 7 * 1440

/-- Horizon end in main (source line 348): now plus LOOKAHEAD_DAYS days. -/
def horizon_end (now lookaheadDays : Int) : Int := now + lookaheadDays * 1440

/-- Truthiness of an optional string in Python: None and the empty string
are falsy. -/
def strTruthy : Option String → Bool
  | none => false
  | some s => decide (s ≠ "")

/-- Python expression a or b for an optional string a and default b. -/
def pyOr (a : Option String) (b : String) : String :=
  match a with
  | some s => if s = "" then b else s
  | none => b

/-- A submission snapshot as decide_status_from_submission reads it. -/
structure Submission where
  workflow_state : Option String
  submitted_at : Option String
deriving DecidableEq

/-- decide_status_from_submission (source lines 247-257), with now_local()
passed explicitly. -/
def decide_status_from_submission (sub : Option Submission) (due_dt : Option Int)
    (now : Int) : String :=
  let unmet :=
    match due_dt with
    | some d => if d < now then "DNF" else "To do"
    | none => "To do"
  match sub with
  | some s =>
      if s.workflow_state = some "graded" ∨ s.workflow_state = some "submitted"
          ∨ strTruthy s.submitted_at = true then "Complete"
      else if s.workflow_state = some "pending_review" then "In Progress"
      else unmet
  | none => unmet

/-- A Canvas assignment as full_scan reads it. -/
structure Assignment where
  id : Nat
  name : Option String
  quiz_id : Option Nat
  due_at : TimeInput
  description : Option String
  submission : Option Submission
deriving DecidableEq

def EXAM_KEYWORDS : List String := ["exam", "midterm", "final"]

/-- Pattern is a leading segment of the character list. -/
def listHasPre : List Char → List Char → Bool
  | [], _ => true
  | _ :: _, [] => false
  | p :: ps, c :: cs => if p = c then listHasPre ps cs else false

/-- Pattern occurs somewhere inside the character list. -/
def listHasSub (pat : List Char) : List Char → Bool
  | [] => pat.isEmpty
  | l@(_ :: cs) => listHasPre pat l || listHasSub pat cs

/-- Python substring membership k in name. -/
def strContains (s pat : String) : Bool := listHasSub pat.toList s.toList

/-- classify_type (source lines 239-245): quiz marker wins, then exam
keywords in the lowercased name, else Assignment. -/
def classify_type (a : Assignment) : String :=
  let quizTruthy := match a.quiz_id with | some q => decide (q ≠ 0) | none => false
  if quizTruthy then "Quiz"
  else
    let nm := (pyOr a.name "").toLower
    if EXAM_KEYWORDS.any (fun k => strContains nm k) then "Exam" else "Assignment"

/-- key_for (source lines 206-207). -/
def key_for (course_id assignment_id : Nat) : String :=
  toString course_id ++ ":" ++ toString assignment_id

/-- status_prop_value (source lines 200-203): encode the status name for a
true status column when the flag is set, else as a select value. -/
def status_prop_value (statusIsStatusType : Bool) (status_name : String) : PropValue :=
  if statusIsStatusType then .statusV status_name else .selectV status_name

/-- Destination column types the script distinguishes. -/
inductive PropType where
  | title
  | rich_text
  | date
  | select
  | multi_select
  | status
  | url
deriving DecidableEq

/-- The cached destination schema: column name to column type. -/
abbrev Schema := List (String × PropType)

def lookupType (schema : Schema) (name : String) : Option PropType :=
  (schema.find? (fun nt => decide (nt.1 = name))).map (fun nt => nt.2)

/-- property_is_select (source lines 192-198): a column is choice-typed
when its actual type is select or multi_select; a missing column is not. -/
def property_is_select (schema : Schema) (prop : String) : Bool :=
  match lookupType schema prop with
  | some t => decide (t = .select ∨ t = .multi_select)
  | none => false

/-- ensure_property (source lines 144-173): an existing column is left
untouched, with a logged warning (the returned flag) exactly when its type
differs from the expected one; a missing column is created with the
declared type. -/
def ensure_property (schema : Schema) (name : String) (ptype : PropType)
    (_options : List String) : Schema × Bool :=
  match lookupType schema name with
  | some t => (schema, decide (t ≠ ptype))
  | none => (schema ++ [(name, ptype)], false)

/-- ensure_schema (source lines 175-190): ensure the fixed columns, record
whether the Status column is a true status type, then ensure Key. -/
def ensure_schema (schema : Schema) : Schema × Bool :=
  let s1 := (ensure_property schema "Task" .title []).1
  let s2 := (ensure_property s1 "Class" .select []).1
  let s3 := (ensure_property s2 "Type" .select ["Assignment", "Quiz", "Exam"]).1
  let s4 := (ensure_property s3 "Due" .date []).1
  let s5 := (ensure_property s4 "Time" .rich_text []).1
  let s6 := (ensure_property s5 "Notes" .rich_text []).1
  let s7 := (ensure_property s6 "Submission Link" .url []).1
  match lookupType s7 "Status" with
  | some t => ((ensure_property s7 "Key" .rich_text []).1, decide (t = .status))
  | none =>
      let s8 := (ensure_property s7 "Status" .status ["To do", "In Progress", "Complete", "DNF"]).1
      ((ensure_property s8 "Key" .rich_text []).1, true)

/-- State machine for re.sub removing every occurrence of an HTML tag,
one char at a time; the buffer holds, reversed, the characters since the
last pending opening angle bracket. -/
def stripAux : List Char → Option (List Char) → List Char
  | [], none => []
  | [], some buf => buf.reverse
  | c :: rest, none =>
      if c = '<' then stripAux rest (some ['<']) else c :: stripAux rest none
  | c :: rest, some buf =>
      if c = '>' then
        if 2 ≤ buf.length then stripAux rest none
        else buf.reverse ++ '>' :: stripAux rest none
      else stripAux rest (some (c :: buf))

/-- Removal of HTML tags from the description (source line 313). -/
def stripTagsStr (s : String) : String := ⟨stripAux s.toList none⟩

/-- Python str.strip(): whitespace trimmed from both ends. -/
def pyStrip (s : String) : String :=
  ⟨((s.toList.dropWhile Char.isWhitespace).reverse.dropWhile Char.isWhitespace).reverse⟩

/-- Description handling in full_scan (source lines 310-314): default the
missing or null description to the empty string; a truthy description has
tags stripped and is trimmed. -/
def cleanDescription (d : Option String) : String :=
  let description := d.getD ""
  if description = "" then description else pyStrip (stripTagsStr description)

/-- Per-course scan context: the module-level configuration and schema
cache plus the arguments of full_scan, including the current instant. -/
structure ScanCtx where
  cfg : Config
  schema : Schema
  flag : Bool
  cid : Nat
  cname : String
  hs : Int
  he : Int
  now : Int
deriving DecidableEq

/-- The deterministic assignment URL (source lines 331-332 and 286-288). -/
def assignment_url (cfg : Config) (cid aid : Nat) : String :=
  cfg.baseUrl ++ "/courses/" ++ toString cid ++ "/assignments/" ++ toString aid

/-- The full properties payload built for one in-horizon assignment
(source lines 302-337). -/
def build_full_props (ctx : ScanCtx) (a : Assignment) (due : Int) : Props :=
  let type_str := classify_type a
  let status_value := decide_status_from_submission a.submission (some due) ctx.now
  let task_name := pyOr a.name ("Assignment " ++ toString a.id)
  let key := key_for ctx.cid a.id
  let description := cleanDescription a.description
  let base : Props :=
    [("Task", .titleV (task_name.take 1000)),
     ("Type", .selectV type_str),
     ("Status", status_prop_value ctx.flag status_value),
     ("Key", .richTextV key),
     ("Due", .dateV due),
     ("Time", .richTextV (time_str ctx.cfg due))]
  let withNotes :=
    if description = "" then base else base ++ [("Notes", .richTextV (description.take 2000))]
  let withLink := withNotes ++ [("Submission Link", .urlV (assignment_url ctx.cfg ctx.cid a.id))]
  withLink ++
    [("Class", if property_is_select ctx.schema "Class"
               then .selectV ctx.cname else .richTextV ctx.cname)]

/-- One destination mutation issued through upsert_page. -/
inductive UpsertOp where
  | createOp (id : Nat) (props : Props)
  | updateOp (id : Nat) (props : Props)
deriving DecidableEq

def UpsertOp.isUpdate : UpsertOp → Bool
  | .updateOp _ _ => true
  | .createOp _ _ => false

def UpsertOp.props : UpsertOp → Props
  | .updateOp _ P => P
  | .createOp _ P => P

def UpsertOp.targetId : UpsertOp → Nat
  | .updateOp i _ => i
  | .createOp i _ => i

/-- Result of one engine pass: final database, mutation trace, and whether
the pass returned normally (false when an uncaught exception propagated,
aborting the pass at that point with the database as reached so far). -/
structure ScanResult where
  db : NotionDB
  ops : List UpsertOp
  ok : Bool
deriving DecidableEq

/-- full_scan (source lines 293-341) over an already-fetched assignment
list: skip assignments without a due instant or outside the inclusive
horizon, otherwise build the full payload, look the key up, and upsert.
A malformed due_at makes parse_canvas_time raise, aborting the pass. -/
def full_scan (ctx : ScanCtx) : List Assignment → NotionDB → ScanResult
  | [], db => ⟨db, [], true⟩
  | a :: rest, db =>
      match parse_canvas_time a.due_at with
      | .error _ => ⟨db, [], false⟩
      | .ok none => full_scan ctx rest db
      | .ok (some due) =>
          if due < ctx.hs ∨ due > ctx.he then full_scan ctx rest db
          else
            let P := build_full_props ctx a due
            let pid := find_by_key db (key_for ctx.cid a.id)
            let op : UpsertOp :=
              match pid with
              | some i => .updateOp i P
              | none => .createOp db.nextId P
            let r := full_scan ctx rest (upsert_page P pid db)
            ⟨r.db, op :: r.ops, r.ok⟩

/-- The assignment data embedded in a changed submission; an absent field
reads as None through dict.get. -/
structure AssignmentStub where
  id : Option Nat
  due_at : TimeInput
deriving DecidableEq

/-- One element of the changed-submission delta list, with its embedded
assignment. -/
structure ChangedSubmission where
  assignment : Option AssignmentStub
  workflow_state : Option String
  submitted_at : Option String
deriving DecidableEq

/-- The partial payload built by the delta pass for one changed submission
(source lines 279-288): status always, due and time only when a due
instant exists, and the submission link. -/
def build_delta_props (ctx : ScanCtx) (s : ChangedSubmission) (aid : Nat)
    (due_dt : Option Int) : Props :=
  let status_value :=
    decide_status_from_submission (some ⟨s.workflow_state, s.submitted_at⟩) due_dt ctx.now
  let base : Props := [("Status", status_prop_value ctx.flag status_value)]
  let withDue :=
    match due_dt with
    | some d => base ++ [("Due", .dateV d), ("Time", .richTextV (time_str ctx.cfg d))]
    | none => base
  withDue ++ [("Submission Link", .urlV (assignment_url ctx.cfg ctx.cid aid))]

/-- The loop body of sync_status_deltas_since (source lines 268-290): skip
a submission without a truthy assignment id, skip one whose key has no
existing page, otherwise update just that page.  A malformed due_at makes
parse_canvas_time raise, aborting the pass. -/
def delta_loop (ctx : ScanCtx) : List ChangedSubmission → NotionDB → ScanResult
  | [], db => ⟨db, [], true⟩
  | s :: rest, db =>
      let a := s.assignment.getD ⟨none, .noneT⟩
      match a.id with
      | none => delta_loop ctx rest db
      | some aid =>
          if aid = 0 then delta_loop ctx rest db
          else
            match find_by_key db (key_for ctx.cid aid) with
            | none => delta_loop ctx rest db
            | some pid =>
                match parse_canvas_time a.due_at with
                | .error _ => ⟨db, [], false⟩
                | .ok due_dt =>
                    let P := build_delta_props ctx s aid due_dt
                    let r := delta_loop ctx rest (upsert_page P (some pid) db)
                    ⟨r.db, .updateOp pid P :: r.ops, r.ok⟩

/-- sync_status_deltas_since (source lines 260-290): an HTTPError from the
delta fetch is caught and logged and the pass returns normally having done
nothing; otherwise run the loop over the fetched list. -/
def sync_status_deltas_since (ctx : ScanCtx) (fetched : Except Unit (List ChangedSubmission))
    (db : NotionDB) : ScanResult :=
  match fetched with
  | .error _ => ⟨db, [], true⟩
  | .ok changed => delta_loop ctx changed db

/-- One engine pass over the destination, for stating cross-run
invariants: a full scan or a delta pass with arbitrary parameters. -/
inductive EngineRun where
  | fullR (ctx : ScanCtx) (assignments : List Assignment)
  | deltaR (ctx : ScanCtx) (changed : List ChangedSubmission)

/-- The destination state after one engine pass. -/
def execRun : EngineRun → NotionDB → NotionDB
  | .fullR ctx as, db => (full_scan ctx as db).db
  | .deltaR ctx cs, db => (delta_loop ctx cs db).db

/-- The destination state after a sequence of engine passes. -/
def execRuns (runs : List EngineRun) (db : NotionDB) : NotionDB :=
  runs.foldl (fun d r => execRun r d) db

/-- A course record as get_course returns it. -/
structure CourseData where
  course_code : Option String
  name : Option String

/-- The remote responses one course iteration of main consumes.  A missing
course models get_course returning None (404 or caught request error); an
error fetch models requests raising for that call. -/
structure CourseInput where
  cid : Nat
  course : Option CourseData
  assignmentsFetch : Except Unit (List Assignment)
  deltaFetch : Except Unit (List ChangedSubmission)

/-- Process-wide context of main: configuration, the schema after
ensure_schema, the status-type flag, the current instant, and
LOOKAHEAD_DAYS. -/
structure MainCtx where
  cfg : Config
  schema : Schema
  flag : Bool
  now : Int
  lookahead : Int

/-- Course display name (source line 357): override, or course_code, or
name, or a fallback, each step skipping falsy values. -/
def course_name_for (cfg : Config) (cid : Nat) (c : CourseData) : String :=
  let ov := ((cfg.overrides.find? (fun nv => decide (nv.1 = cid))).map (fun nv => nv.2))
  pyOr ov (pyOr c.course_code (pyOr c.name ("Course " ++ toString cid)))

/-- The scan context main builds for one course. -/
def courseCtx (mc : MainCtx) (cid : Nat) (c : CourseData) : ScanCtx :=
  ⟨mc.cfg, mc.schema, mc.flag, cid, course_name_for mc.cfg cid c,
   horizon_start mc.now, horizon_end mc.now mc.lookahead, mc.now⟩

/-- One iteration of the course loop in main (source lines 352-363): a
course that failed to load is logged and skipped; the delta pass runs only
when a previous watermark exists; full_scan fetches the assignment list
with no exception handler, so a failed assignments fetch or an exception
escaping either pass aborts the iteration abnormally. -/
def runCourse (mc : MainCtx) (lastSync : Option Int) (inp : CourseInput)
    (db : NotionDB) : ScanResult :=
  match inp.course with
  | none => ⟨db, [], true⟩
  | some c =>
      let ctx := courseCtx mc inp.cid c
      let dr :=
        match lastSync with
        | some _ => sync_status_deltas_since ctx inp.deltaFetch db
        | none => ⟨db, [], true⟩
      if dr.ok then
        match inp.assignmentsFetch with
        | .error _ => ⟨dr.db, dr.ops, false⟩
        | .ok as =>
            let fr := full_scan ctx as dr.db
            ⟨fr.db, dr.ops ++ fr.ops, fr.ok⟩
      else ⟨dr.db, dr.ops, false⟩

/-- The course loop of main: an abnormal iteration aborts the whole loop,
leaving the remaining courses unprocessed. -/
def runCourses (mc : MainCtx) (lastSync : Option Int) :
    List CourseInput → NotionDB → ScanResult
  | [], db => ⟨db, [], true⟩
  | i :: rest, db =>
      let r := runCourse mc lastSync i db
      if r.ok then
        let r2 := runCourses mc lastSync rest r.db
        ⟨r2.db, r.ops ++ r2.ops, r2.ok⟩
      else ⟨r.db, r.ops, false⟩

/-- Content of the persisted last-sync file: empty after strip, a
parseable timestamp, or a malformed one on which dateparser raises. -/
inductive StoredSync where
  | emptyC
  | parseableC (t : Int)
  | malformedC

/-- State of the .state/last_sync.txt file. -/
inductive SyncFileState where
  | missing
  | present (content : StoredSync)

/-- load_last_sync (source lines 51-59), paired with the log lines it
emits (it emits none): a missing file, empty content, or a parse failure
caught by the bare except all yield no watermark. -/
def load_last_sync : SyncFileState → Option Int × List String
  | .missing => (none, [])
  | .present .emptyC => (none, [])
  | .present (.parseableC t) => (some t, [])
  | .present .malformedC => (none, [])

/-- Result of one whole run of main: destination state, mutation trace,
normal completion, and the watermark written at clean shutdown. -/
structure MainResult where
  db : NotionDB
  ops : List UpsertOp
  ok : Bool
  savedSync : Option Int
deriving DecidableEq

/-- main (source lines 344-366) after ensure_schema: read the watermark,
process every course, and persist the new watermark only when the loop
completed normally. -/
def runMain (mc : MainCtx) (file : SyncFileState) (inps : List CourseInput)
    (db : NotionDB) : MainResult :=
  let lastSync := (load_last_sync file).1
  let r := runCourses mc lastSync inps db
  ⟨r.db, r.ops, r.ok, if r.ok then some mc.now else none⟩

/-- Names of the properties a list of bindings may use. -/
def NamesNodup (P : Props) : Prop := (P.map Prod.fst).Nodup

/-- Property names the delta pass is allowed to write. -/
def deltaAllowedNames : List String := ["Status", "Due", "Time", "Submission Link"]

/-- At most one destination page carries any given identity key. -/
def UniqueKeys (db : NotionDB) : Prop :=
  ∀ k : String, db.pages.countP (fun p => pageHasKey k p) ≤ 1

/-- Well-formedness Notion guarantees: page ids are distinct and below the
next fresh id. -/
def GoodDB (db : NotionDB) : Prop :=
  UniqueKeys db ∧ (db.pages.map Page.id).Nodup ∧ ∀ p ∈ db.pages, p.id < db.nextId

/-- Every page of the first state survives into the second with the same
id and the same identity key. -/
def Preserves (db db' : NotionDB) : Prop :=
  ∀ p ∈ db.pages, ∃ q ∈ db'.pages,
    q.id = p.id ∧ getProp q.props "Key" = getProp p.props "Key"

/-- Frame relation of the delta pass between a page before and after: same
id, and the Task, Class, Type and Notes properties untouched. -/
def FramePres (p q : Page) : Prop :=
  q.id = p.id
  ∧ getProp q.props "Task" = getProp p.props "Task"
  ∧ getProp q.props "Class" = getProp p.props "Class"
  ∧ getProp q.props "Type" = getProp p.props "Type"
  ∧ getProp q.props "Notes" = getProp p.props "Notes"

/-! Concrete example inputs used to instantiate the theorems below.  cfgEx
uses the default America/Phoenix zone, whose UTC offset is -420 minutes. -/

def cfgEx : Config := ⟨"https://canvas.example.edu", -420, []⟩

def schemaEx : Schema :=
  [("Task", .title), ("Class", .select), ("Type", .select), ("Due", .date),
   ("Time", .rich_text), ("Notes", .rich_text), ("Submission Link", .url),
   ("Status", .status), ("Key", .rich_text)]

def ctxEx : ScanCtx :=
  ⟨cfgEx, schemaEx, true, 7, "CSE 101", horizon_start 0, horizon_end 0 120, 0⟩

def aEx : Assignment := ⟨55, some "HW1", none, .parseableT 0 none, none, none⟩

/-- An assignment due eight days before the instant 0. -/
def a8Ex : Assignment := ⟨56, some "HW0", none, .parseableT (0 - 8 * 1440) none, none, none⟩

def sEx : ChangedSubmission := ⟨some ⟨some 55, .parseableT 0 none⟩, some "graded", none⟩

/-- A destination that already carries the page for key 7:55. -/
def db1Ex : NotionDB := ⟨[⟨0, [("Key", .richTextV "7:55")]⟩], 1⟩

def mcEx : MainCtx := ⟨cfgEx, schemaEx, true, 0, 120⟩

def courseEx : CourseData := ⟨some "CSE 101", some "Intro"⟩

/-- A course whose assignment-list fetch raises an HTTPError. -/
def cBad : CourseInput := ⟨1, some courseEx, .error (), .ok []⟩

/-- A course with one assignment inside the horizon. -/
def cGood : CourseInput := ⟨2, some courseEx, .ok [aEx], .ok []⟩

/-! Lemmas about property association lists. -/

theorem getProp_nil (n : String) : getProp [] n = none := rfl

theorem getProp_cons (m : String) (w : PropValue) (l : Props) (n : String) :
    getProp ((m, w) :: l) n = if m = n then some w else getProp l n := by
  by_cases h : m = n <;> simp [getProp, List.find?, h]

theorem getProp_append (l1 l2 : Props) (n : String) :
    getProp (l1 ++ l2) n =
      match getProp l1 n with
      | some v => some v
      | none => getProp l2 n := by
  induction l1 with
  | nil => simp [getProp_nil]
  | cons nv t ih =>
      obtain ⟨m, w⟩ := nv
      by_cases h : m = n <;> simp [getProp_cons, h, ih]

theorem getProp_setProp_self (l : Props) (n : String) (v : PropValue) :
    getProp (setProp l n v) n = some v := by
  induction l with
  | nil => simp [setProp, getProp_cons]
  | cons nv t ih =>
      obtain ⟨m, w⟩ := nv
      by_cases h : m = n <;> simp [setProp, h, getProp_cons, ih]

theorem getProp_setProp_ne (l : Props) (n m : String) (v : PropValue) (h : n ≠ m) :
    getProp (setProp l n v) m = getProp l m := by
  induction l with
  | nil => simp [setProp, getProp_cons, h, getProp_nil]
  | cons nv t ih =>
      obtain ⟨a, w⟩ := nv
      by_cases ha : a = n
      · subst ha
        simp [setProp, getProp_cons, h]
      · simp [setProp, ha, getProp_cons, ih]

theorem setProp_eq_of_getProp (l : Props) (n : String) (v : PropValue)
    (h : getProp l n = some v) : setProp l n v = l := by
  induction l with
  | nil => simp [getProp_nil] at h
  | cons nv t ih =>
      obtain ⟨m, w⟩ := nv
      by_cases hm : m = n
      · rw [getProp_cons, if_pos hm] at h
        obtain rfl : w = v := by injection h
        simp [setProp, hm]
      · rw [getProp_cons, if_neg hm] at h
        simp [setProp, hm, ih h]

theorem getProp_eq_none_iff (l : Props) (n : String) :
    getProp l n = none ↔ n ∉ l.map Prod.fst := by
  induction l with
  | nil => simp [getProp_nil]
  | cons nv t ih =>
      obtain ⟨m, w⟩ := nv
      by_cases h : m = n <;> simp [getProp_cons, h, ih, eq_comm (a := n) (b := m)]

theorem getProp_mem (l : Props) (n : String) (v : PropValue)
    (h : getProp l n = some v) : (n, v) ∈ l := by
  induction l with
  | nil => simp [getProp_nil] at h
  | cons nv t ih =>
      obtain ⟨m, w⟩ := nv
      by_cases hm : m = n
      · rw [getProp_cons, if_pos hm] at h
        obtain rfl : w = v := by injection h
        subst hm
        exact List.mem_cons_self ..
      · rw [getProp_cons, if_neg hm] at h
        exact List.mem_cons_of_mem _ (ih h)

theorem getProp_of_mem_nodup (l : Props) (n : String) (v : PropValue)
    (hN : NamesNodup l) (h : (n, v) ∈ l) : getProp l n = some v := by
  induction l with
  | nil => simp at h
  | cons nv t ih =>
      obtain ⟨m, w⟩ := nv
      rw [NamesNodup, List.map_cons, List.nodup_cons] at hN
      rcases List.mem_cons.mp h with heq | ht
      · obtain ⟨rfl, rfl⟩ := Prod.mk.injEq .. ▸ heq
        simp [getProp_cons]
      · have hn : n ∈ t.map Prod.fst := List.mem_map_of_mem Prod.fst ht
        have hmn : m ≠ n := fun hc => hN.1 (hc ▸ hn)
        rw [getProp_cons, if_neg hmn]
        exact ih hN.2 ht

theorem getProp_applyProps_not_mem (P l : Props) (n : String)
    (h : n ∉ P.map Prod.fst) : getProp (applyProps l P) n = getProp l n := by
  induction P generalizing l with
  | nil => rfl
  | cons nv t ih =>
      obtain ⟨m, w⟩ := nv
      simp only [List.map_cons, List.mem_cons] at h
      push_neg at h
      show getProp (applyProps (setProp l m w) t) n = getProp l n
      rw [ih _ h.2, getProp_setProp_ne _ _ _ _ (fun hc => h.1 hc.symm)]

theorem getProp_applyProps_mem (P l : Props) (n : String) (v : PropValue)
    (hN : NamesNodup P) (h : (n, v) ∈ P) : getProp (applyProps l P) n = some v := by
  induction P generalizing l with
  | nil => simp at h
  | cons nv t ih =>
      obtain ⟨m, w⟩ := nv
      rw [NamesNodup, List.map_cons, List.nodup_cons] at hN
      rcases List.mem_cons.mp h with heq | ht
      · obtain ⟨rfl, rfl⟩ := Prod.mk.injEq .. ▸ heq
        show getProp (applyProps (setProp l n v) t) n = some v
        rw [getProp_applyProps_not_mem _ _ _ hN.1, getProp_setProp_self]
      · show getProp (applyProps (setProp l m w) t) n = some v
        exact ih (setProp l m w) hN.2 ht

theorem applyProps_absorb (P l : Props)
    (h : ∀ nv ∈ P, getProp l nv.1 = some nv.2) : applyProps l P = l := by
  induction P with
  | nil => rfl
  | cons nv t ih =>
      obtain ⟨m, w⟩ := nv
      show applyProps (setProp l m w) t = l
      rw [setProp_eq_of_getProp _ _ _ (h (m, w) (List.mem_cons_self ..)),
        ih (fun nv hnv => h nv (List.mem_cons_of_mem _ hnv))]

/-! Generic list helper lemmas. -/

theorem find?_map_pres {α : Type} (f : α → α) (q : α → Bool) (l : List α)
    (h : ∀ p ∈ l, q (f p) = q p) :
    (l.map f).find? q = (l.find? q).map f := by
  induction l with
  | nil => rfl
  | cons a t ih =>
      rw [List.map_cons, List.find?, List.find?, h a (List.mem_cons_self ..)]
      cases hq : q a with
      | true => rfl
      | false => simpa using ih (fun p hp => h p (List.mem_cons_of_mem _ hp))

theorem find?_append_cases {α : Type} (l1 l2 : List α) (q : α → Bool) :
    (l1 ++ l2).find? q =
      match l1.find? q with
      | some a => some a
      | none => l2.find? q := by
  induction l1 with
  | nil => simp
  | cons a t ih =>
      rw [List.cons_append, List.find?, List.find?]
      cases hq : q a with
      | true => rfl
      | false => simpa using ih

theorem countP_congr_mem {α : Type} (l : List α) (p q : α → Bool)
    (h : ∀ a ∈ l, p a = q a) : l.countP p = l.countP q := by
  induction l with
  | nil => rfl
  | cons a t ih =>
      rw [List.countP_cons, List.countP_cons, h a (List.mem_cons_self ..),
        ih (fun x hx => h x (List.mem_cons_of_mem _ hx))]

theorem countP_map_pres {α : Type} (f : α → α) (q : α → Bool) (l : List α)
    (h : ∀ p ∈ l, q (f p) = q p) : (l.map f).countP q = l.countP q := by
  rw [List.countP_map]
  exact countP_congr_mem l _ _ (fun a ha => h a ha)

theorem map_eq_self_of_mem {α : Type} (f : α → α) (l : List α)
    (h : ∀ a ∈ l, f a = a) : l.map f = l := by
  induction l with
  | nil => rfl
  | cons a t ih =>
      rw [List.map_cons, h a (List.mem_cons_self ..),
        ih (fun x hx => h x (List.mem_cons_of_mem _ hx))]

theorem forall2_map_self {α : Type} (r : α → α → Prop) (f : α → α) (l : List α)
    (h : ∀ a ∈ l, r a (f a)) : List.Forall₂ r l (l.map f) := by
  induction l with
  | nil => exact List.Forall₂.nil
  | cons a t ih =>
      exact List.Forall₂.cons (h a (List.mem_cons_self ..))
        (ih (fun x hx => h x (List.mem_cons_of_mem _ hx)))

theorem forall2_refl_of {α : Type} (r : α → α → Prop) (l : List α)
    (h : ∀ a ∈ l, r a a) : List.Forall₂ r l l := by
  induction l with
  | nil => exact List.Forall₂.nil
  | cons a t ih =>
      exact List.Forall₂.cons (h a (List.mem_cons_self ..))
        (ih (fun x hx => h x (List.mem_cons_of_mem _ hx)))

theorem forall2_trans_of {α : Type} (r : α → α → Prop)
    (ht : ∀ a b c, r a b → r b c → r a c) :
    ∀ {l1 l2 l3 : List α}, List.Forall₂ r l1 l2 → List.Forall₂ r l2 l3 →
      List.Forall₂ r l1 l3 := by
  intro l1 l2 l3 h1 h2
  induction h1 generalizing l3 with
  | nil => cases h2; exact List.Forall₂.nil
  | cons hab htail ih =>
      cases h2 with
      | cons hbc h2tail => exact List.Forall₂.cons (ht _ _ _ hab hbc) (ih h2tail)

theorem map_congr_mem {α β : Type} (f g : α → β) (l : List α)
    (h : ∀ a ∈ l, f a = g a) : l.map f = l.map g := by
  induction l with
  | nil => rfl
  | cons a t ih =>
      rw [List.map_cons, List.map_cons, h a (List.mem_cons_self ..),
        ih (fun x hx => h x (List.mem_cons_of_mem _ hx))]

/-! Invariant machinery for the destination database. -/

theorem goodDB_empty : GoodDB emptyDB := by
  refine ⟨fun k => ?_, ?_, ?_⟩ <;> simp [emptyDB, UniqueKeys]

theorem preserves_refl (db : NotionDB) : Preserves db db :=
  fun p hp => ⟨p, hp, rfl, rfl⟩

theorem preserves_trans {a b c : NotionDB} (h1 : Preserves a b) (h2 : Preserves b c) :
    Preserves a c := by
  intro p hp
  obtain ⟨q, hq, hqid, hqkey⟩ := h1 p hp
  obtain ⟨r, hr, hrid, hrkey⟩ := h2 q hq
  exact ⟨r, hr, hrid.trans hqid, hrkey.trans hqkey⟩

theorem upsert_preserves_good (db : NotionDB) (key : String) (P : Props)
    (hN : NamesNodup P)
    (hP : getProp P "Key" = none ∨ getProp P "Key" = some (.richTextV key))
    (hG : GoodDB db) :
    GoodDB (upsert_page P (find_by_key db key) db)
      ∧ Preserves db (upsert_page P (find_by_key db key) db) := by
  obtain ⟨hU, hNod, hBound⟩ := hG
  rcases hfind : db.pages.find? (pageHasKey key) with _ | p0
  · -- no existing page carries the key: a fresh page is appended
    have hnone : ∀ p ∈ db.pages, ¬ pageHasKey key p := List.find?_eq_none.mp hfind
    have hfbk : find_by_key db key = none := by rw [find_by_key, hfind]
    rw [hfbk]
    refine ⟨⟨?_, ?_, ?_⟩, ?_⟩
    · intro k
      show (db.pages ++ [(⟨db.nextId, P⟩ : Page)]).countP (fun p => pageHasKey k p) ≤ 1
      rw [List.countP_append]
      cases hk : pageHasKey k ⟨db.nextId, P⟩ with
      | false =>
          have h1 : ([(⟨db.nextId, P⟩ : Page)]).countP (fun p => pageHasKey k p) = 0 := by
            simp [List.countP_cons, hk]
          rw [h1]
          simpa using hU k
      | true =>
          have hkey : getProp P "Key" = some (.richTextV k) := by
            have := of_decide_eq_true (by simpa [pageHasKey] using hk)
            exact this
          rcases hP with hPn | hPs
          · rw [hPn] at hkey; cases hkey
          · rw [hPs] at hkey
            have hkk : key = k := by injection hkey with h'; injection h'
            subst hkk
            have h0 : db.pages.countP (fun p => pageHasKey key p) = 0 :=
              List.countP_eq_zero.mpr hnone
            have h1 : ([(⟨db.nextId, P⟩ : Page)]).countP (fun p => pageHasKey key p) ≤ 1 := by
              simp [List.countP_cons, hk]
            omega
    · show ((db.pages ++ [(⟨db.nextId, P⟩ : Page)]).map Page.id).Nodup
      rw [List.map_append]
      rw [List.nodup_append]
      refine ⟨hNod, by simp, ?_⟩
      intro x hx hx2
      obtain ⟨p, hp, rfl⟩ := List.mem_map.mp hx
      simp only [List.map_cons, List.map_nil, List.mem_cons, List.not_mem_nil] at hx2
      rcases hx2 with h | h
      · exact absurd h (Nat.ne_of_lt (hBound p hp))
      · exact h
    · intro p hp
      rcases List.mem_append.mp hp with h | h
      · exact Nat.lt_succ_of_lt (hBound p h)
      · simp only [List.mem_cons, List.not_mem_nil, or_false] at h
        subst h
        exact Nat.lt_succ_self _
    · intro p hp
      exact ⟨p, List.mem_append_left _ hp, rfl, rfl⟩
  · -- an existing page carries the key: it is updated in place
    have hp0mem : p0 ∈ db.pages := List.mem_of_find?_eq_some hfind
    have hp0key : getProp p0.props "Key" = some (.richTextV key) :=
      of_decide_eq_true (by simpa [pageHasKey] using List.find?_some hfind)
    have hfbk : find_by_key db key = some p0.id := by rw [find_by_key, hfind]
    rw [hfbk]
    set f : Page → Page :=
      fun p => if p.id = p0.id then ⟨p.id, applyProps p.props P⟩ else p with hf
    have hid : ∀ p : Page, (f p).id = p.id := by
      intro p
      by_cases h : p.id = p0.id <;> simp [hf, h]
    have hkeyPres : ∀ p ∈ db.pages, getProp (f p).props "Key" = getProp p.props "Key" := by
      intro p hp
      by_cases h : p.id = p0.id
      · have hpp0 : p = p0 := List.inj_on_of_nodup_map hNod hp hp0mem h
        subst hpp0
        simp only [hf, if_pos h]
        show getProp (applyProps p.props P) "Key" = getProp p.props "Key"
        rcases hP with hPn | hPs
        · exact getProp_applyProps_not_mem P _ _ ((getProp_eq_none_iff P "Key").mp hPn)
        · rw [getProp_applyProps_mem P _ _ _ hN (getProp_mem P _ _ hPs), hp0key]
      · simp [hf, h]
    have hhk : ∀ p ∈ db.pages, ∀ k, pageHasKey k (f p) = pageHasKey k p := by
      intro p hp k
      simp [pageHasKey, hkeyPres p hp]
    refine ⟨⟨?_, ?_, ?_⟩, ?_⟩
    · intro k
      show (db.pages.map f).countP (fun p => pageHasKey k p) ≤ 1
      rw [countP_map_pres f _ _ (fun p hp => hhk p hp k)]
      exact hU k
    · show ((db.pages.map f).map Page.id).Nodup
      rw [List.map_map]
      have hm : db.pages.map (Page.id ∘ f) = db.pages.map Page.id :=
        map_congr_mem _ _ _ (fun p _ => hid p)
      rw [hm]
      exact hNod
    · intro q hq
      obtain ⟨p, hp, rfl⟩ := List.mem_map.mp hq
      rw [hid p]
      exact hBound p hp
    · intro p hp
      exact ⟨f p, List.mem_map_of_mem f hp, hid p, hkeyPres p hp⟩

/-! Facts about the payloads the two passes build. -/

theorem build_full_names (ctx : ScanCtx) (a : Assignment) (due : Int) :
    (build_full_props ctx a due).map Prod.fst =
      if cleanDescription a.description = ""
      then ["Task", "Type", "Status", "Key", "Due", "Time", "Submission Link", "Class"]
      else ["Task", "Type", "Status", "Key", "Due", "Time", "Notes", "Submission Link",
        "Class"] := by
  by_cases h : cleanDescription a.description = "" <;>
    simp [build_full_props, h]

theorem build_full_nodup (ctx : ScanCtx) (a : Assignment) (due : Int) :
    NamesNodup (build_full_props ctx a due) := by
  rw [NamesNodup, build_full_names]
  by_cases h : cleanDescription a.description = ""
  · rw [if_pos h]; decide
  · rw [if_neg h]; decide

theorem build_full_key (ctx : ScanCtx) (a : Assignment) (due : Int) :
    getProp (build_full_props ctx a due) "Key"
      = some (.richTextV (key_for ctx.cid a.id)) := by
  by_cases h : cleanDescription a.description = "" <;>
    simp [build_full_props, h, getProp_append, getProp_cons]

theorem build_full_class (ctx : ScanCtx) (a : Assignment) (due : Int) :
    getProp (build_full_props ctx a due) "Class"
      = some (if property_is_select ctx.schema "Class"
              then .selectV ctx.cname else .richTextV ctx.cname) := by
  have hmem : ("Class",
      if property_is_select ctx.schema "Class"
      then PropValue.selectV ctx.cname else PropValue.richTextV ctx.cname)
      ∈ build_full_props ctx a due := by
    rw [build_full_props]
    exact List.mem_append_right _ (List.mem_cons_self ..)
  exact getProp_of_mem_nodup _ _ _ (build_full_nodup ctx a due) hmem

theorem delta_names (ctx : ScanCtx) (s : ChangedSubmission) (aid : Nat)
    (due_dt : Option Int) :
    (build_delta_props ctx s aid due_dt).map Prod.fst =
      match due_dt with
      | some _ => ["Status", "Due", "Time", "Submission Link"]
      | none => ["Status", "Submission Link"] := by
  cases due_dt <;> simp [build_delta_props]

theorem delta_nodup (ctx : ScanCtx) (s : ChangedSubmission) (aid : Nat)
    (due_dt : Option Int) : NamesNodup (build_delta_props ctx s aid due_dt) := by
  cases due_dt with
  | none =>
      rw [NamesNodup, delta_names]
      show (["Status", "Submission Link"]).Nodup
      decide
  | some d =>
      rw [NamesNodup, delta_names]
      show (["Status", "Due", "Time", "Submission Link"]).Nodup
      decide

theorem delta_key_none (ctx : ScanCtx) (s : ChangedSubmission) (aid : Nat)
    (due_dt : Option Int) : getProp (build_delta_props ctx s aid due_dt) "Key" = none := by
  cases due_dt with
  | none =>
      rw [getProp_eq_none_iff, delta_names]
      show "Key" ∉ ["Status", "Submission Link"]
      decide
  | some d =>
      rw [getProp_eq_none_iff, delta_names]
      show "Key" ∉ ["Status", "Due", "Time", "Submission Link"]
      decide

theorem delta_names_allowed (ctx : ScanCtx) (s : ChangedSubmission) (aid : Nat)
    (due_dt : Option Int) :
    ∀ nv ∈ build_delta_props ctx s aid due_dt, nv.1 ∈ deltaAllowedNames := by
  intro nv hnv
  have h1 : nv.1 ∈ (build_delta_props ctx s aid due_dt).map Prod.fst :=
    List.mem_map_of_mem Prod.fst hnv
  rw [delta_names] at h1
  cases due_dt <;> simp [deltaAllowedNames] at h1 ⊢ <;> tauto

/-! Unfolding lemmas for the two passes. -/

theorem full_scan_nil (ctx : ScanCtx) (db : NotionDB) :
    full_scan ctx [] db = ⟨db, [], true⟩ := rfl

theorem full_scan_cons_err (ctx : ScanCtx) (a : Assignment) (rest : List Assignment)
    (db : NotionDB) (h : parse_canvas_time a.due_at = .error ()) :
    full_scan ctx (a :: rest) db = ⟨db, [], false⟩ := by
  rw [full_scan, h]

theorem full_scan_cons_nodue (ctx : ScanCtx) (a : Assignment) (rest : List Assignment)
    (db : NotionDB) (h : parse_canvas_time a.due_at = .ok none) :
    full_scan ctx (a :: rest) db = full_scan ctx rest db := by
  rw [full_scan, h]

theorem full_scan_cons_out (ctx : ScanCtx) (a : Assignment) (rest : List Assignment)
    (db : NotionDB) (d : Int) (h : parse_canvas_time a.due_at = .ok (some d))
    (hout : d < ctx.hs ∨ d > ctx.he) :
    full_scan ctx (a :: rest) db = full_scan ctx rest db := by
  rw [full_scan, h]
  simp only [if_pos hout]

theorem full_scan_cons_proc (ctx : ScanCtx) (a : Assignment) (rest : List Assignment)
    (db : NotionDB) (d : Int) (h : parse_canvas_time a.due_at = .ok (some d))
    (hin : ¬(d < ctx.hs ∨ d > ctx.he)) :
    full_scan ctx (a :: rest) db =
      ⟨(full_scan ctx rest (upsert_page (build_full_props ctx a d)
          (find_by_key db (key_for ctx.cid a.id)) db)).db,
       (match find_by_key db (key_for ctx.cid a.id) with
        | some i => UpsertOp.updateOp i (build_full_props ctx a d)
        | none => UpsertOp.createOp db.nextId (build_full_props ctx a d)) ::
         (full_scan ctx rest (upsert_page (build_full_props ctx a d)
           (find_by_key db (key_for ctx.cid a.id)) db)).ops,
       (full_scan ctx rest (upsert_page (build_full_props ctx a d)
         (find_by_key db (key_for ctx.cid a.id)) db)).ok⟩ := by
  rw [full_scan, h]
  simp only [if_neg hin]

theorem delta_loop_nil (ctx : ScanCtx) (db : NotionDB) :
    delta_loop ctx [] db = ⟨db, [], true⟩ := rfl

theorem delta_loop_cons_noaid (ctx : ScanCtx) (s : ChangedSubmission)
    (rest : List ChangedSubmission) (db : NotionDB)
    (h : (s.assignment.getD ⟨none, .noneT⟩).id = none) :
    delta_loop ctx (s :: rest) db = delta_loop ctx rest db := by
  rw [delta_loop, h]

theorem delta_loop_cons_zero (ctx : ScanCtx) (s : ChangedSubmission)
    (rest : List ChangedSubmission) (db : NotionDB)
    (h : (s.assignment.getD ⟨none, .noneT⟩).id = some 0) :
    delta_loop ctx (s :: rest) db = delta_loop ctx rest db := by
  rw [delta_loop, h]
  simp

theorem delta_loop_cons_nopage (ctx : ScanCtx) (s : ChangedSubmission)
    (rest : List ChangedSubmission) (db : NotionDB) (aid : Nat)
    (h : (s.assignment.getD ⟨none, .noneT⟩).id = some aid) (hz : aid ≠ 0)
    (hf : find_by_key db (key_for ctx.cid aid) = none) :
    delta_loop ctx (s :: rest) db = delta_loop ctx rest db := by
  rw [delta_loop, h]
  simp only [if_neg hz, hf]

theorem delta_loop_cons_err (ctx : ScanCtx) (s : ChangedSubmission)
    (rest : List ChangedSubmission) (db : NotionDB) (aid pid : Nat)
    (h : (s.assignment.getD ⟨none, .noneT⟩).id = some aid) (hz : aid ≠ 0)
    (hf : find_by_key db (key_for ctx.cid aid) = some pid)
    (hp : parse_canvas_time (s.assignment.getD ⟨none, .noneT⟩).due_at = .error ()) :
    delta_loop ctx (s :: rest) db = ⟨db, [], false⟩ := by
  rw [delta_loop, h]
  simp only [if_neg hz, hf, hp]

theorem delta_loop_cons_proc (ctx : ScanCtx) (s : ChangedSubmission)
    (rest : List ChangedSubmission) (db : NotionDB) (aid pid : Nat) (due_dt : Option Int)
    (h : (s.assignment.getD ⟨none, .noneT⟩).id = some aid) (hz : aid ≠ 0)
    (hf : find_by_key db (key_for ctx.cid aid) = some pid)
    (hp : parse_canvas_time (s.assignment.getD ⟨none, .noneT⟩).due_at = .ok due_dt) :
    delta_loop ctx (s :: rest) db =
      ⟨(delta_loop ctx rest
          (upsert_page (build_delta_props ctx s aid due_dt) (some pid) db)).db,
       UpsertOp.updateOp pid (build_delta_props ctx s aid due_dt) ::
         (delta_loop ctx rest
           (upsert_page (build_delta_props ctx s aid due_dt) (some pid) db)).ops,
       (delta_loop ctx rest
         (upsert_page (build_delta_props ctx s aid due_dt) (some pid) db)).ok⟩ := by
  rw [delta_loop, h]
  simp only [if_neg hz, hf, hp]

/-! The invariants survive whole passes and sequences of passes. -/

theorem full_scan_good (ctx : ScanCtx) (as : List Assignment) :
    ∀ db : NotionDB, GoodDB db →
      GoodDB (full_scan ctx as db).db ∧ Preserves db (full_scan ctx as db).db := by
  induction as with
  | nil =>
      intro db h
      rw [full_scan_nil]
      exact ⟨h, preserves_refl db⟩
  | cons a rest ih =>
      intro db h
      rcases hp : parse_canvas_time a.due_at with u | od
      · cases u
        rw [full_scan_cons_err ctx a rest db hp]
        exact ⟨h, preserves_refl db⟩
      · cases od with
        | none =>
            rw [full_scan_cons_nodue ctx a rest db hp]
            exact ih db h
        | some d =>
            by_cases hw : d < ctx.hs ∨ d > ctx.he
            · rw [full_scan_cons_out ctx a rest db d hp hw]
              exact ih db h
            · rw [full_scan_cons_proc ctx a rest db d hp hw]
              have hup := upsert_preserves_good db (key_for ctx.cid a.id)
                (build_full_props ctx a d) (build_full_nodup ctx a d)
                (Or.inr (build_full_key ctx a d)) h
              have hih := ih _ hup.1
              exact ⟨hih.1, preserves_trans hup.2 hih.2⟩

theorem delta_loop_good (ctx : ScanCtx) (cs : List ChangedSubmission) :
    ∀ db : NotionDB, GoodDB db →
      GoodDB (delta_loop ctx cs db).db ∧ Preserves db (delta_loop ctx cs db).db := by
  induction cs with
  | nil =>
      intro db h
      rw [delta_loop_nil]
      exact ⟨h, preserves_refl db⟩
  | cons s rest ih =>
      intro db h
      rcases ha : (s.assignment.getD ⟨none, .noneT⟩).id with _ | aid
      · rw [delta_loop_cons_noaid _ _ _ _ ha]
        exact ih db h
      · by_cases hz : aid = 0
        · subst hz
          rw [delta_loop_cons_zero _ _ _ _ ha]
          exact ih db h
        · rcases hf : find_by_key db (key_for ctx.cid aid) with _ | pid
          · rw [delta_loop_cons_nopage _ _ _ _ _ ha hz hf]
            exact ih db h
          · rcases hpt : parse_canvas_time (s.assignment.getD ⟨none, .noneT⟩).due_at
              with u | due_dt
            · cases u
              rw [delta_loop_cons_err _ _ _ _ _ _ ha hz hf hpt]
              exact ⟨h, preserves_refl db⟩
            · rw [delta_loop_cons_proc _ _ _ _ _ _ _ ha hz hf hpt]
              have hup := upsert_preserves_good db (key_for ctx.cid aid)
                (build_delta_props ctx s aid due_dt) (delta_nodup ctx s aid due_dt)
                (Or.inl (delta_key_none ctx s aid due_dt)) h
              rw [hf] at hup
              have hih := ih _ hup.1
              exact ⟨hih.1, preserves_trans hup.2 hih.2⟩

theorem execRun_good (r : EngineRun) (db : NotionDB) (h : GoodDB db) :
    GoodDB (execRun r db) ∧ Preserves db (execRun r db) := by
  cases r with
  | fullR ctx as => exact full_scan_good ctx as db h
  | deltaR ctx cs => exact delta_loop_good ctx cs db h

theorem execRuns_good (runs : List EngineRun) :
    ∀ db : NotionDB, GoodDB db →
      GoodDB (execRuns runs db) ∧ Preserves db (execRuns runs db) := by
  induction runs with
  | nil =>
      intro db h
      exact ⟨h, preserves_refl db⟩
  | cons r rs ih =>
      intro db h
      have h1 := execRun_good r db h
      have h2 := ih _ h1.1
      exact ⟨h2.1, preserves_trans h1.2 h2.2⟩

/-! Stability of the page carrying a key under upserts for other keys. -/

theorem upsert_find_other (db : NotionDB) (key k : String) (P : Props)
    (hN : NamesNodup P) (hKey : getProp P "Key" = some (.richTextV key)) (hk : k ≠ key)
    (hG : GoodDB db) :
    (upsert_page P (find_by_key db key) db).pages.find? (pageHasKey k)
      = db.pages.find? (pageHasKey k) := by
  obtain ⟨hU, hNod, hBound⟩ := hG
  rcases hfind : db.pages.find? (pageHasKey key) with _ | p0
  · have hfbk : find_by_key db key = none := by rw [find_by_key, hfind]
    rw [hfbk]
    show (db.pages ++ [(⟨db.nextId, P⟩ : Page)]).find? (pageHasKey k)
      = db.pages.find? (pageHasKey k)
    rw [find?_append_cases]
    have hnew : pageHasKey k ⟨db.nextId, P⟩ = false := by
      simp only [pageHasKey, hKey, decide_eq_false_iff_not]
      intro hc
      injection hc with hc2
      injection hc2 with hc3
      exact hk hc3.symm
    rcases hres : db.pages.find? (pageHasKey k) with _ | p <;> simp [List.find?, hnew]
  · have hfbk : find_by_key db key = some p0.id := by rw [find_by_key, hfind]
    rw [hfbk]
    have hp0mem : p0 ∈ db.pages := List.mem_of_find?_eq_some hfind
    have hp0key : getProp p0.props "Key" = some (.richTextV key) :=
      of_decide_eq_true (by simpa [pageHasKey] using List.find?_some hfind)
    set f : Page → Page :=
      fun p => if p.id = p0.id then ⟨p.id, applyProps p.props P⟩ else p with hf
    have hkeyPres : ∀ p ∈ db.pages, getProp (f p).props "Key" = getProp p.props "Key" := by
      intro p hp
      by_cases h : p.id = p0.id
      · have hpp0 : p = p0 := List.inj_on_of_nodup_map hNod hp hp0mem h
        subst hpp0
        simp only [hf, if_pos h]
        show getProp (applyProps p.props P) "Key" = getProp p.props "Key"
        rw [getProp_applyProps_mem P _ _ _ hN (getProp_mem P _ _ hKey), hp0key]
      · simp [hf, h]
    have hhk : ∀ p ∈ db.pages, pageHasKey k (f p) = pageHasKey k p := by
      intro p hp
      simp [pageHasKey, hkeyPres p hp]
    show (db.pages.map f).find? (pageHasKey k) = db.pages.find? (pageHasKey k)
    rw [find?_map_pres f _ _ hhk]
    rcases hres : db.pages.find? (pageHasKey k) with _ | p
    · rfl
    · have hpmem : p ∈ db.pages := List.mem_of_find?_eq_some hres
      have hpkey : getProp p.props "Key" = some (.richTextV k) :=
        of_decide_eq_true (by simpa [pageHasKey] using List.find?_some hres)
      have hne : ¬ p.id = p0.id := by
        intro hid
        have hpq : p = p0 := List.inj_on_of_nodup_map hNod hpmem hp0mem hid
        rw [hpq, hp0key] at hpkey
        injection hpkey with hc2
        injection hc2 with hc3
        exact hk hc3.symm
      simp [hf, hne]

theorem full_scan_find_other (ctx : ScanCtx) (k : String) (as : List Assignment) :
    ∀ db : NotionDB, GoodDB db → (∀ a ∈ as, key_for ctx.cid a.id ≠ k) →
      (full_scan ctx as db).db.pages.find? (pageHasKey k)
        = db.pages.find? (pageHasKey k) := by
  induction as with
  | nil =>
      intro db _ _
      rw [full_scan_nil]
  | cons a rest ih =>
      intro db h hks
      rcases hp : parse_canvas_time a.due_at with u | od
      · cases u
        rw [full_scan_cons_err ctx a rest db hp]
      · cases od with
        | none =>
            rw [full_scan_cons_nodue ctx a rest db hp]
            exact ih db h (fun x hx => hks x (List.mem_cons_of_mem _ hx))
        | some d =>
            by_cases hw : d < ctx.hs ∨ d > ctx.he
            · rw [full_scan_cons_out ctx a rest db d hp hw]
              exact ih db h (fun x hx => hks x (List.mem_cons_of_mem _ hx))
            · rw [full_scan_cons_proc ctx a rest db d hp hw]
              have hgood := upsert_preserves_good db (key_for ctx.cid a.id)
                (build_full_props ctx a d) (build_full_nodup ctx a d)
                (Or.inr (build_full_key ctx a d)) h
              have hstep := upsert_find_other db (key_for ctx.cid a.id) k
                (build_full_props ctx a d) (build_full_nodup ctx a d)
                (build_full_key ctx a d)
                (fun hc => hks a (List.mem_cons_self ..) hc.symm) h
              have hrest := ih _ hgood.1 (fun x hx => hks x (List.mem_cons_of_mem _ hx))
              exact hrest.trans hstep

theorem update_fun_keyPres (db : NotionDB) (key : String) (P : Props)
    (hN : NamesNodup P)
    (hP : getProp P "Key" = none ∨ getProp P "Key" = some (.richTextV key))
    (hNod : (db.pages.map Page.id).Nodup)
    (p0 : Page) (hfind : db.pages.find? (pageHasKey key) = some p0) :
    ∀ p ∈ db.pages, ∀ k : String,
      pageHasKey k (if p.id = p0.id then (⟨p.id, applyProps p.props P⟩ : Page) else p)
        = pageHasKey k p := by
  have hp0mem : p0 ∈ db.pages := List.mem_of_find?_eq_some hfind
  have hp0key : getProp p0.props "Key" = some (.richTextV key) :=
    of_decide_eq_true (by simpa [pageHasKey] using List.find?_some hfind)
  intro p hp k
  by_cases h : p.id = p0.id
  · have hpp0 : p = p0 := List.inj_on_of_nodup_map hNod hp hp0mem h
    subst hpp0
    rw [if_pos h]
    have hkp : getProp (applyProps p.props P) "Key" = getProp p.props "Key" := by
      rcases hP with hPn | hPs
      · exact getProp_applyProps_not_mem P _ _ ((getProp_eq_none_iff P "Key").mp hPn)
      · rw [getProp_applyProps_mem P _ _ _ hN (getProp_mem P _ _ hPs), hp0key]
    simp [pageHasKey, hkp]
  · rw [if_neg h]

theorem full_scan_twice (ctx : ScanCtx) (as : List Assignment) :
    ∀ db : NotionDB, GoodDB db → ((as.map (fun a => key_for ctx.cid a.id)).Nodup) →
      (full_scan ctx as (full_scan ctx as db).db).db = (full_scan ctx as db).db
      ∧ (full_scan ctx as (full_scan ctx as db).db).ok = (full_scan ctx as db).ok
      ∧ List.Forall₂ (fun o1 o2 => o2.isUpdate = true ∧ o2.props = o1.props)
          (full_scan ctx as db).ops (full_scan ctx as (full_scan ctx as db).db).ops := by
  induction as with
  | nil =>
      intro db _ _
      rw [full_scan_nil]
      rw [full_scan_nil]
      exact ⟨rfl, rfl, List.Forall₂.nil⟩
  | cons a rest ih =>
      intro db h hnd
      have hnd_rest : (rest.map (fun x => key_for ctx.cid x.id)).Nodup :=
        (List.nodup_cons.mp hnd).2
      have hknot : key_for ctx.cid a.id ∉ rest.map (fun x => key_for ctx.cid x.id) :=
        (List.nodup_cons.mp hnd).1
      have hks : ∀ x ∈ rest, key_for ctx.cid x.id ≠ key_for ctx.cid a.id := by
        intro x hx hc
        exact hknot (hc ▸ List.mem_map_of_mem (fun y => key_for ctx.cid y.id) hx)
      rcases hp : parse_canvas_time a.due_at with u | od
      · cases u
        rw [full_scan_cons_err ctx a rest db hp]
        rw [full_scan_cons_err ctx a rest _ hp]
        exact ⟨rfl, rfl, List.Forall₂.nil⟩
      · cases od with
        | none =>
            rw [full_scan_cons_nodue ctx a rest db hp]
            rw [full_scan_cons_nodue ctx a rest _ hp]
            exact ih db h hnd_rest
        | some d =>
            by_cases hw : d < ctx.hs ∨ d > ctx.he
            · rw [full_scan_cons_out ctx a rest db d hp hw]
              rw [full_scan_cons_out ctx a rest _ d hp hw]
              exact ih db h hnd_rest
            · have hr1 := full_scan_cons_proc ctx a rest db d hp hw
              have hNP := build_full_nodup ctx a d
              have hKP := build_full_key ctx a d
              rcases hfind : db.pages.find? (pageHasKey (key_for ctx.cid a.id)) with _ | p0
              · -- first run creates the page
                have hfbk : find_by_key db (key_for ctx.cid a.id) = none := by
                  rw [find_by_key, hfind]
                simp only [hfbk] at hr1
                have hGood2 : GoodDB (upsert_page (build_full_props ctx a d) none db)
                    := by
                  have := (upsert_preserves_good db (key_for ctx.cid a.id)
                    (build_full_props ctx a d) hNP (Or.inr hKP) h).1
                  rw [hfbk] at this
                  exact this
                have hf2 : (upsert_page (build_full_props ctx a d) none db).pages.find?
                    (pageHasKey (key_for ctx.cid a.id))
                    = some ⟨db.nextId, build_full_props ctx a d⟩ := by
                  show (db.pages ++ [(⟨db.nextId, build_full_props ctx a d⟩ : Page)]).find?
                    (pageHasKey (key_for ctx.cid a.id)) = _
                  rw [find?_append_cases, hfind]
                  simp [List.find?, pageHasKey, hKP]
                have hstab := full_scan_find_other ctx (key_for ctx.cid a.id) rest
                  (upsert_page (build_full_props ctx a d) none db) hGood2 hks
                have hres := hstab.trans hf2
                have hfbkR : find_by_key
                    (full_scan ctx rest (upsert_page (build_full_props ctx a d) none db)).db
                    (key_for ctx.cid a.id) = some db.nextId := by
                  rw [find_by_key, hres]
                have hGoodR := (full_scan_good ctx rest _ hGood2).1
                have hpmem : (⟨db.nextId, build_full_props ctx a d⟩ : Page)
                    ∈ (full_scan ctx rest
                      (upsert_page (build_full_props ctx a d) none db)).db.pages :=
                  List.mem_of_find?_eq_some hres
                have habs : ∀ nv ∈ build_full_props ctx a d,
                    getProp (build_full_props ctx a d) nv.1 = some nv.2 :=
                  fun nv hnv => getProp_of_mem_nodup _ nv.1 nv.2 hNP hnv
                have hupeq : upsert_page (build_full_props ctx a d) (some db.nextId)
                    (full_scan ctx rest
                      (upsert_page (build_full_props ctx a d) none db)).db
                    = (full_scan ctx rest
                      (upsert_page (build_full_props ctx a d) none db)).db := by
                  show (⟨_, _⟩ : NotionDB) = _
                  have hfix : ∀ p ∈ (full_scan ctx rest
                      (upsert_page (build_full_props ctx a d) none db)).db.pages,
                      (if p.id = db.nextId
                       then (⟨p.id, applyProps p.props (build_full_props ctx a d)⟩ : Page)
                       else p) = p := by
                    intro p hp
                    by_cases hid : p.id = db.nextId
                    · have hpq : p = ⟨db.nextId, build_full_props ctx a d⟩ :=
                        List.inj_on_of_nodup_map hGoodR.2.1 hp hpmem hid
                      rw [if_pos hid, hpq]
                      show (⟨db.nextId, applyProps (build_full_props ctx a d)
                        (build_full_props ctx a d)⟩ : Page) = _
                      rw [applyProps_absorb _ _ habs]
                    · rw [if_neg hid]
                  rw [map_eq_self_of_mem _ _ hfix]
                have hr2 := full_scan_cons_proc ctx a rest
                  (full_scan ctx rest (upsert_page (build_full_props ctx a d) none db)).db
                  d hp hw
                simp only [hfbkR] at hr2
                rw [hupeq] at hr2
                have hIH := ih (upsert_page (build_full_props ctx a d) none db)
                  hGood2 hnd_rest
                have e1 : (full_scan ctx (a :: rest) db).db
                    = (full_scan ctx rest
                      (upsert_page (build_full_props ctx a d) none db)).db := by
                  rw [hr1]
                refine ⟨?_, ?_, ?_⟩
                · rw [e1, hr2]
                  exact hIH.1
                · rw [e1, hr2, hr1]
                  exact hIH.2.1
                · rw [e1, hr2, hr1]
                  exact List.Forall₂.cons ⟨rfl, rfl⟩ hIH.2.2
              · -- first run updates the existing page
                have hfbk : find_by_key db (key_for ctx.cid a.id) = some p0.id := by
                  rw [find_by_key, hfind]
                simp only [hfbk] at hr1
                have hGood2 : GoodDB (upsert_page (build_full_props ctx a d)
                    (some p0.id) db) := by
                  have := (upsert_preserves_good db (key_for ctx.cid a.id)
                    (build_full_props ctx a d) hNP (Or.inr hKP) h).1
                  rw [hfbk] at this
                  exact this
                have hhk := update_fun_keyPres db (key_for ctx.cid a.id)
                  (build_full_props ctx a d) hNP (Or.inr hKP) h.2.1 p0 hfind
                have hf2 : (upsert_page (build_full_props ctx a d) (some p0.id) db).pages.find?
                    (pageHasKey (key_for ctx.cid a.id))
                    = some ⟨p0.id, applyProps p0.props (build_full_props ctx a d)⟩ := by
                  show (db.pages.map (fun p => if p.id = p0.id
                      then (⟨p.id, applyProps p.props (build_full_props ctx a d)⟩ : Page)
                      else p)).find? (pageHasKey (key_for ctx.cid a.id)) = _
                  rw [find?_map_pres _ _ _
                    (fun p hp => hhk p hp (key_for ctx.cid a.id)), hfind]
                  simp
                have hstab := full_scan_find_other ctx (key_for ctx.cid a.id) rest
                  (upsert_page (build_full_props ctx a d) (some p0.id) db) hGood2 hks
                have hres := hstab.trans hf2
                have hfbkR : find_by_key
                    (full_scan ctx rest (upsert_page (build_full_props ctx a d)
                      (some p0.id) db)).db
                    (key_for ctx.cid a.id) = some p0.id := by
                  rw [find_by_key, hres]
                have hGoodR := (full_scan_good ctx rest _ hGood2).1
                have hpmem : (⟨p0.id, applyProps p0.props (build_full_props ctx a d)⟩ : Page)
                    ∈ (full_scan ctx rest (upsert_page (build_full_props ctx a d)
                      (some p0.id) db)).db.pages :=
                  List.mem_of_find?_eq_some hres
                have habs : ∀ nv ∈ build_full_props ctx a d,
                    getProp (applyProps p0.props (build_full_props ctx a d)) nv.1
                      = some nv.2 :=
                  fun nv hnv => getProp_applyProps_mem _ _ nv.1 nv.2 hNP hnv
                have hupeq : upsert_page (build_full_props ctx a d) (some p0.id)
                    (full_scan ctx rest (upsert_page (build_full_props ctx a d)
                      (some p0.id) db)).db
                    = (full_scan ctx rest (upsert_page (build_full_props ctx a d)
                      (some p0.id) db)).db := by
                  show (⟨_, _⟩ : NotionDB) = _
                  have hfix : ∀ p ∈ (full_scan ctx rest
                      (upsert_page (build_full_props ctx a d) (some p0.id) db)).db.pages,
                      (if p.id = p0.id
                       then (⟨p.id, applyProps p.props (build_full_props ctx a d)⟩ : Page)
                       else p) = p := by
                    intro p hp
                    by_cases hid : p.id = p0.id
                    · have hpq : p = ⟨p0.id, applyProps p0.props (build_full_props ctx a d)⟩ :=
                        List.inj_on_of_nodup_map hGoodR.2.1 hp hpmem hid
                      rw [if_pos hid, hpq]
                      show (⟨p0.id, applyProps
                        (applyProps p0.props (build_full_props ctx a d))
                        (build_full_props ctx a d)⟩ : Page) = _
                      rw [applyProps_absorb _ _ habs]
                    · rw [if_neg hid]
                  rw [map_eq_self_of_mem _ _ hfix]
                have hr2 := full_scan_cons_proc ctx a rest
                  (full_scan ctx rest (upsert_page (build_full_props ctx a d)
                    (some p0.id) db)).db d hp hw
                simp only [hfbkR] at hr2
                rw [hupeq] at hr2
                have hIH := ih (upsert_page (build_full_props ctx a d) (some p0.id) db)
                  hGood2 hnd_rest
                have e1 : (full_scan ctx (a :: rest) db).db
                    = (full_scan ctx rest (upsert_page (build_full_props ctx a d)
                      (some p0.id) db)).db := by
                  rw [hr1]
                refine ⟨?_, ?_, ?_⟩
                · rw [e1, hr2]
                  exact hIH.1
                · rw [e1, hr2, hr1]
                  exact hIH.2.1
                · rw [e1, hr2, hr1]
                  exact List.Forall₂.cons ⟨rfl, rfl⟩ hIH.2.2

/-! Frame machinery for the delta pass. -/

theorem delta_names_sub (ctx : ScanCtx) (s : ChangedSubmission) (aid : Nat)
    (due_dt : Option Int) :
    ∀ n ∈ (build_delta_props ctx s aid due_dt).map Prod.fst, n ∈ deltaAllowedNames := by
  intro n hn
  obtain ⟨nv, hnv, rfl⟩ := List.mem_map.mp hn
  exact delta_names_allowed ctx s aid due_dt nv hnv

theorem framePres_refl (p : Page) : FramePres p p := ⟨rfl, rfl, rfl, rfl, rfl⟩

theorem framePres_trans {p q r : Page} (h1 : FramePres p q) (h2 : FramePres q r) :
    FramePres p r :=
  ⟨h2.1.trans h1.1, h2.2.1.trans h1.2.1, h2.2.2.1.trans h1.2.2.1,
   h2.2.2.2.1.trans h1.2.2.2.1, h2.2.2.2.2.trans h1.2.2.2.2⟩

theorem upsert_delta_frame (db : NotionDB) (P : Props) (pid : Nat)
    (hsub : ∀ n ∈ P.map Prod.fst, n ∈ deltaAllowedNames) :
    List.Forall₂ FramePres db.pages (upsert_page P (some pid) db).pages
    ∧ (upsert_page P (some pid) db).pages.map Page.id = db.pages.map Page.id := by
  have hnm : ∀ n : String, n ∉ deltaAllowedNames → n ∉ P.map Prod.fst :=
    fun n hn hmem => hn (hsub n hmem)
  constructor
  · apply forall2_map_self
    intro p _
    by_cases h : p.id = pid
    · simp only [if_pos h]
      exact ⟨rfl,
        getProp_applyProps_not_mem P _ _ (hnm "Task" (by decide)),
        getProp_applyProps_not_mem P _ _ (hnm "Class" (by decide)),
        getProp_applyProps_not_mem P _ _ (hnm "Type" (by decide)),
        getProp_applyProps_not_mem P _ _ (hnm "Notes" (by decide))⟩
    · simp only [if_neg h]
      exact framePres_refl p
  · show (db.pages.map _).map Page.id = db.pages.map Page.id
    rw [List.map_map]
    apply map_congr_mem
    intro p _
    by_cases h : p.id = pid <;> simp [h]

theorem delta_loop_frame (ctx : ScanCtx) (cs : List ChangedSubmission) :
    ∀ db : NotionDB,
      List.Forall₂ FramePres db.pages (delta_loop ctx cs db).db.pages
      ∧ (delta_loop ctx cs db).db.pages.map Page.id = db.pages.map Page.id
      ∧ ∀ op ∈ (delta_loop ctx cs db).ops, op.isUpdate = true
          ∧ (∀ nv ∈ op.props, nv.1 ∈ deltaAllowedNames)
          ∧ op.targetId ∈ db.pages.map Page.id := by
  induction cs with
  | nil =>
      intro db
      rw [delta_loop_nil]
      exact ⟨forall2_refl_of _ _ (fun p _ => framePres_refl p), rfl, by simp⟩
  | cons s rest ih =>
      intro db
      rcases ha : (s.assignment.getD ⟨none, .noneT⟩).id with _ | aid
      · rw [delta_loop_cons_noaid _ _ _ _ ha]
        exact ih db
      · by_cases hz : aid = 0
        · subst hz
          rw [delta_loop_cons_zero _ _ _ _ ha]
          exact ih db
        · rcases hfind : db.pages.find? (pageHasKey (key_for ctx.cid aid)) with _ | q
          · have hf : find_by_key db (key_for ctx.cid aid) = none := by
              rw [find_by_key, hfind]
            rw [delta_loop_cons_nopage _ _ _ _ _ ha hz hf]
            exact ih db
          · have hf : find_by_key db (key_for ctx.cid aid) = some q.id := by
              rw [find_by_key, hfind]
            have hqmem : q ∈ db.pages := List.mem_of_find?_eq_some hfind
            rcases hpt : parse_canvas_time (s.assignment.getD ⟨none, .noneT⟩).due_at
              with u | due_dt
            · cases u
              rw [delta_loop_cons_err _ _ _ _ _ _ ha hz hf hpt]
              exact ⟨forall2_refl_of _ _ (fun p _ => framePres_refl p), rfl, by simp⟩
            · rw [delta_loop_cons_proc _ _ _ _ _ _ _ ha hz hf hpt]
              have hstep := upsert_delta_frame db
                (build_delta_props ctx s aid due_dt) q.id
                (delta_names_sub ctx s aid due_dt)
              have htail := ih (upsert_page (build_delta_props ctx s aid due_dt)
                (some q.id) db)
              refine ⟨forall2_trans_of FramePres (fun _ _ _ => framePres_trans)
                hstep.1 htail.1, htail.2.1.trans hstep.2, ?_⟩
              intro op hop
              rcases List.mem_cons.mp hop with rfl | hop2
              · exact ⟨rfl, delta_names_allowed ctx s aid due_dt,
                  List.mem_map_of_mem Page.id hqmem⟩
              · have h3 := (htail.2.2) op hop2
                exact ⟨h3.1, h3.2.1, hstep.2 ▸ h3.2.2⟩

theorem forall2_mem_right {α : Type} {r : α → α → Prop} :
    ∀ {l1 l2 : List α}, List.Forall₂ r l1 l2 → ∀ b ∈ l2, ∃ a ∈ l1, r a b := by
  intro l1 l2 h
  induction h with
  | nil => intro b hb; simp at hb
  | cons hab htail ih =>
      intro b hb
      rcases List.mem_cons.mp hb with rfl | hb2
      · exact ⟨_, List.mem_cons_self .., hab⟩
      · obtain ⟨a, ha, har⟩ := ih b hb2
        exact ⟨a, List.mem_cons_of_mem _ ha, har⟩

theorem forall2_map_eq {α β : Type} (f : α → β) {r : α → α → Prop}
    (hr : ∀ a b, r a b → f b = f a) :
    ∀ {l1 l2 : List α}, List.Forall₂ r l1 l2 → l2.map f = l1.map f := by
  intro l1 l2 h
  induction h with
  | nil => rfl
  | cons hab htail ih => rw [List.map_cons, List.map_cons, hr _ _ hab, ih]

/-- C1: across any sequence of engine passes (full scans and delta passes
in any order) over a well-formed destination, at most one destination page
ever carries any identity key, because each upsert is keyed by the
immediately preceding find_by_key lookup, a create happens only when no
page with the key exists, and no update ever changes the identity key of a
surviving page. -/
theorem claim_no_duplicate_keys (db : NotionDB) (runs : List EngineRun)
    (hG : GoodDB db) :
    UniqueKeys (execRuns runs db) ∧ Preserves db (execRuns runs db) :=
  ⟨(execRuns_good runs db hG).1.1, (execRuns_good runs db hG).2⟩

theorem claim_no_duplicate_keys_witness :
    UniqueKeys (execRuns [EngineRun.fullR ctxEx [aEx]] emptyDB)
    ∧ Preserves emptyDB (execRuns [EngineRun.fullR ctxEx [aEx]] emptyDB) :=
  claim_no_duplicate_keys emptyDB [EngineRun.fullR ctxEx [aEx]] goodDB_empty

/-- C2: running full_scan twice in a row over the same assignment list
(each assignment appearing once) and a well-formed destination leaves the
destination of the first run unchanged, and every upsert of the second run
is an update carrying exactly the property payload of the corresponding
first-run upsert. -/
theorem claim_full_scan_idempotent (ctx : ScanCtx) (as : List Assignment)
    (db : NotionDB) (hG : GoodDB db)
    (hnd : (as.map (fun a => key_for ctx.cid a.id)).Nodup) :
    (full_scan ctx as (full_scan ctx as db).db).db = (full_scan ctx as db).db
    ∧ (∀ op ∈ (full_scan ctx as (full_scan ctx as db).db).ops, op.isUpdate = true)
    ∧ (full_scan ctx as (full_scan ctx as db).db).ops.map UpsertOp.props
        = (full_scan ctx as db).ops.map UpsertOp.props := by
  have h := full_scan_twice ctx as db hG hnd
  refine ⟨h.1, ?_, ?_⟩
  · intro op hop
    obtain ⟨o1, _, hrel⟩ := forall2_mem_right h.2.2 op hop
    exact hrel.1
  · exact forall2_map_eq UpsertOp.props (fun a b hab => hab.2) h.2.2

theorem claim_full_scan_idempotent_witness :
    (full_scan ctxEx [aEx] (full_scan ctxEx [aEx] emptyDB).db).db
      = (full_scan ctxEx [aEx] emptyDB).db :=
  (claim_full_scan_idempotent ctxEx [aEx] emptyDB goodDB_empty (by decide)).1

/-- C3: decide_status_from_submission follows exactly the priority order
Complete (graded or submitted workflow state, or non-empty submitted_at),
then In Progress (pending_review), then DNF (due strictly before now),
then To do; in particular a submission with a non-empty submitted_at is
never classified DNF, whatever the due instant. -/
theorem claim_status_priority :
    (∀ (s : Submission) (due : Option Int) (now : Int),
      (s.workflow_state = some "graded" ∨ s.workflow_state = some "submitted"
        ∨ strTruthy s.submitted_at = true) →
      decide_status_from_submission (some s) due now = "Complete")
    ∧ (∀ (s : Submission) (due : Option Int) (now : Int),
      ¬(s.workflow_state = some "graded" ∨ s.workflow_state = some "submitted"
        ∨ strTruthy s.submitted_at = true) →
      s.workflow_state = some "pending_review" →
      decide_status_from_submission (some s) due now = "In Progress")
    ∧ (∀ (s : Submission) (d now : Int),
      ¬(s.workflow_state = some "graded" ∨ s.workflow_state = some "submitted"
        ∨ strTruthy s.submitted_at = true) →
      s.workflow_state ≠ some "pending_review" → d < now →
      decide_status_from_submission (some s) (some d) now = "DNF")
    ∧ (∀ (d now : Int), d < now →
      decide_status_from_submission none (some d) now = "DNF")
    ∧ (∀ (s : Submission) (now : Int),
      ¬(s.workflow_state = some "graded" ∨ s.workflow_state = some "submitted"
        ∨ strTruthy s.submitted_at = true) →
      s.workflow_state ≠ some "pending_review" →
      decide_status_from_submission (some s) none now = "To do")
    ∧ (∀ (s : Submission) (d now : Int),
      ¬(s.workflow_state = some "graded" ∨ s.workflow_state = some "submitted"
        ∨ strTruthy s.submitted_at = true) →
      s.workflow_state ≠ some "pending_review" → ¬(d < now) →
      decide_status_from_submission (some s) (some d) now = "To do")
    ∧ (∀ now : Int, decide_status_from_submission none none now = "To do")
    ∧ (∀ (d now : Int), ¬(d < now) →
      decide_status_from_submission none (some d) now = "To do")
    ∧ (∀ (s : Submission) (due : Option Int) (now : Int) (t : String),
      s.submitted_at = some t → t ≠ "" →
      decide_status_from_submission (some s) due now ≠ "DNF") := by
  refine ⟨?_, ?_, ?_, ?_, ?_, ?_, ?_, ?_, ?_⟩
  · intro s due now h
    simp only [decide_status_from_submission]
    rw [if_pos h]
  · intro s due now h1 h2
    simp only [decide_status_from_submission]
    rw [if_neg h1, if_pos h2]
  · intro s d now h1 h2 h3
    simp only [decide_status_from_submission]
    rw [if_neg h1, if_neg h2, if_pos h3]
  · intro d now h
    simp only [decide_status_from_submission]
    rw [if_pos h]
  · intro s now h1 h2
    simp only [decide_status_from_submission]
    rw [if_neg h1, if_neg h2]
  · intro s d now h1 h2 h3
    simp only [decide_status_from_submission]
    rw [if_neg h1, if_neg h2, if_neg h3]
  · intro now
    rfl
  · intro d now h
    simp only [decide_status_from_submission]
    rw [if_neg h]
  · intro s due now t ht htne
    have hc : s.workflow_state = some "graded" ∨ s.workflow_state = some "submitted"
        ∨ strTruthy s.submitted_at = true := by
      refine Or.inr (Or.inr ?_)
      rw [ht]
      simpa [strTruthy] using htne
    intro hdnf
    have := hdnf ▸ (by
      simp only [decide_status_from_submission]
      rw [if_pos hc] :
      decide_status_from_submission (some s) due now = "Complete")
    exact absurd this (by decide)

theorem claim_status_priority_witness :
    decide_status_from_submission
      (some ⟨some "unsubmitted", some "2024-03-01T06:00:00Z"⟩) (some 0) 5 ≠ "DNF" :=
  claim_status_priority.2.2.2.2.2.2.2.2
    ⟨some "unsubmitted", some "2024-03-01T06:00:00Z"⟩ (some 0) 5
    "2024-03-01T06:00:00Z" rfl (by decide)

/-- C4: for every changed submission it processes, the delta pass writes
only the Status, Due, Time and Submission Link properties, targets only a
page that already exists for the identity key, and never creates a page:
the page id list is unchanged and each page keeps its Task, Class, Type
and Notes properties (and its id). -/
theorem claim_delta_frame (ctx : ScanCtx) (fetched : Except Unit (List ChangedSubmission))
    (db : NotionDB) :
    List.Forall₂ FramePres db.pages (sync_status_deltas_since ctx fetched db).db.pages
    ∧ (sync_status_deltas_since ctx fetched db).db.pages.map Page.id
        = db.pages.map Page.id
    ∧ ∀ op ∈ (sync_status_deltas_since ctx fetched db).ops, op.isUpdate = true
        ∧ (∀ nv ∈ op.props, nv.1 ∈ deltaAllowedNames)
        ∧ op.targetId ∈ db.pages.map Page.id := by
  cases fetched with
  | error u =>
      cases u
      refine ⟨forall2_refl_of _ _ (fun p _ => framePres_refl p), rfl, ?_⟩
      intro op hop
      simp [sync_status_deltas_since] at hop
  | ok cs => exact delta_loop_frame ctx cs db

theorem claim_delta_frame_witness :
    (sync_status_deltas_since ctxEx (.ok [sEx]) db1Ex).db.pages.map Page.id
      = db1Ex.pages.map Page.id :=
  (claim_delta_frame ctxEx (.ok [sEx]) db1Ex).2.1

/-- C5: full_scan processes an assignment exactly when its due instant
exists and lies in the inclusive horizon; an assignment without a due
instant or outside the horizon is skipped with no destination mutation.
With the fixed 7-day lookback and a nonnegative lookahead, a due instant
of now minus 8 days is excluded and one of now minus 6 days is processed. -/
theorem claim_horizon_filter (ctx : ScanCtx) (a : Assignment) (rest : List Assignment)
    (db : NotionDB) :
    (parse_canvas_time a.due_at = .ok none →
      full_scan ctx (a :: rest) db = full_scan ctx rest db)
    ∧ (∀ d : Int, parse_canvas_time a.due_at = .ok (some d) →
      (d < ctx.hs ∨ d > ctx.he) →
      full_scan ctx (a :: rest) db = full_scan ctx rest db)
    ∧ (∀ d : Int, parse_canvas_time a.due_at = .ok (some d) →
      ctx.hs ≤ d → d ≤ ctx.he →
      (full_scan ctx (a :: rest) db).ops
        = (match find_by_key db (key_for ctx.cid a.id) with
           | some i => UpsertOp.updateOp i (build_full_props ctx a d)
           | none => UpsertOp.createOp db.nextId (build_full_props ctx a d)) ::
          (full_scan ctx rest (upsert_page (build_full_props ctx a d)
            (find_by_key db (key_for ctx.cid a.id)) db)).ops)
    ∧ (∀ now lookahead : Int,
        ctx.hs = horizon_start now → ctx.he = horizon_end now lookahead →
        0 ≤ lookahead →
        (parse_canvas_time a.due_at = .ok (some (now - 8 * 1440)) →
          full_scan ctx (a :: rest) db = full_scan ctx rest db)
        ∧ (parse_canvas_time a.due_at = .ok (some (now - 6 * 1440)) →
          (full_scan ctx (a :: rest) db).ops.length
            = (full_scan ctx rest (upsert_page (build_full_props ctx a (now - 6 * 1440))
                (find_by_key db (key_for ctx.cid a.id)) db)).ops.length + 1)) := by
  refine ⟨?_, ?_, ?_, ?_⟩
  · intro h
    exact full_scan_cons_nodue ctx a rest db h
  · intro d h hout
    exact full_scan_cons_out ctx a rest db d h hout
  · intro d h h1 h2
    have hin : ¬(d < ctx.hs ∨ d > ctx.he) := by
      push_neg
      exact ⟨h1, h2⟩
    rw [full_scan_cons_proc ctx a rest db d h hin]
  · intro now lookahead hhs hhe hl
    constructor
    · intro h
      apply full_scan_cons_out ctx a rest db _ h
      left
      rw [hhs, horizon_start]
      omega
    · intro h
      have hin : ¬(now - 6 * 1440 < ctx.hs ∨ now - 6 * 1440 > ctx.he) := by
        rw [hhs, hhe, horizon_start, horizon_end]
        push_neg
        omega
      rw [full_scan_cons_proc ctx a rest db _ h hin]
      simp

theorem claim_horizon_filter_witness :
    full_scan ctxEx [a8Ex] emptyDB = full_scan ctxEx [] emptyDB :=
  ((claim_horizon_filter ctxEx a8Ex [] emptyDB).2.2.2 0 120 rfl rfl
    (by decide)).1 rfl

/-- C6 counterexample: the claim says an HTTP failure fetching one course
unit only skips that unit and the run continues.  With two courses where
the assignment-list fetch of the first course raises, the whole run aborts: no
page is created for the second course (whose single in-horizon assignment
would have produced one page, as the second conjunct shows) and no
watermark is saved. -/
theorem claim_http_failure_counterexample :
    (runMain mcEx .missing [cBad, cGood] emptyDB).db.pages.length = 0
    ∧ (runMain mcEx .missing [cBad, cGood] emptyDB).ok = false
    ∧ (runMain mcEx .missing [cBad, cGood] emptyDB).savedSync = none
    ∧ (runMain mcEx .missing [cGood] emptyDB).db.pages.length = 1 := by
  refine ⟨rfl, rfl, rfl, rfl⟩

/-- C6 amended: a failed course fetch is skipped and the loop continues;
an HTTPError from the delta fetch is caught, so that pass does nothing and
the course continues into the full scan; but an HTTP failure fetching a
assignment list of a course is not caught: it aborts the course loop, leaving
every remaining course unprocessed. -/
theorem claim_http_failure_scope (mc : MainCtx) (ls : Option Int) (inp : CourseInput)
    (rest : List CourseInput) (db : NotionDB) (ctx : ScanCtx) :
    (inp.course = none →
      runCourses mc ls (inp :: rest) db = runCourses mc ls rest db)
    ∧ sync_status_deltas_since ctx (.error ()) db = ⟨db, [], true⟩
    ∧ (∀ c : CourseData, inp.course = some c → inp.assignmentsFetch = .error () →
        runCourses mc ls (inp :: rest) db
          = ⟨(runCourse mc ls inp db).db, (runCourse mc ls inp db).ops, false⟩) := by
  refine ⟨?_, rfl, ?_⟩
  · intro h
    show (if (runCourse mc ls inp db).ok then _ else _) = _
    have hr : runCourse mc ls inp db = ⟨db, [], true⟩ := by
      rw [runCourse, h]
    rw [hr]
    simp only [if_true]
    show (⟨(runCourses mc ls rest db).db, [] ++ (runCourses mc ls rest db).ops,
      (runCourses mc ls rest db).ok⟩ : ScanResult) = _
    rw [List.nil_append]
  · intro c hc hfetch
    have hok : (runCourse mc ls inp db).ok = false := by
      rw [runCourse, hc, hfetch]
      cases ls with
      | none => rfl
      | some t =>
          cases hdr : (sync_status_deltas_since (courseCtx mc inp.cid c)
            inp.deltaFetch db).ok <;> simp [hdr]
    show (if (runCourse mc ls inp db).ok then _ else _) = _
    rw [hok]
    simp only [Bool.false_eq_true, if_false]

theorem claim_http_failure_scope_witness :
    runCourses mcEx none [cBad] emptyDB
      = ⟨(runCourse mcEx none cBad emptyDB).db, (runCourse mcEx none cBad emptyDB).ops,
         false⟩ :=
  (claim_http_failure_scope mcEx none cBad [] emptyDB ctxEx).2.2 courseEx rfl rfl

/-- C7: a destination column that already exists under a different type is
only warned about, never recreated or migrated; the Class value is encoded
as a select option exactly when the actual type of the Class column is select
or multi_select and as rich text otherwise; and the status value is
encoded with a status wrapper when the Status column is a true status type
and with a select wrapper otherwise. -/
theorem claim_schema_tolerance :
    (∀ (schema : Schema) (name : String) (ptype : PropType) (opts : List String)
       (t : PropType), lookupType schema name = some t → t ≠ ptype →
       ensure_property schema name ptype opts = (schema, true))
    ∧ (∀ (ctx : ScanCtx) (a : Assignment) (due : Int),
        getProp (build_full_props ctx a due) "Class"
          = some (if property_is_select ctx.schema "Class"
                  then .selectV ctx.cname else .richTextV ctx.cname))
    ∧ (∀ s : String, status_prop_value true s = .statusV s
        ∧ status_prop_value false s = .selectV s) := by
  refine ⟨?_, ?_, ?_⟩
  · intro schema name ptype opts t ht hne
    rw [ensure_property, ht]
    simp [hne]
  · intro ctx a due
    exact build_full_class ctx a due
  · intro s
    exact ⟨rfl, rfl⟩

theorem claim_schema_tolerance_witness :
    ensure_property [("Class", PropType.rich_text)] "Class" .select []
      = ([("Class", PropType.rich_text)], true) :=
  claim_schema_tolerance.1 [("Class", PropType.rich_text)] "Class" .select []
    .rich_text rfl (by decide)

/-- C8: parse_canvas_time yields no value exactly on absent or empty
input; a parseable timestamp without a UTC offset is treated as if it
carried offset zero, that is, assumed UTC; and a malformed timestamp makes
the parse raise, propagating the error to the caller. -/
theorem claim_parse_time_contract :
    (∀ inp : TimeInput,
      parse_canvas_time inp = .ok none ↔ inp = .noneT ∨ inp = .emptyT)
    ∧ (∀ w : Int, parse_canvas_time (.parseableT w none) = .ok (some w)
        ∧ parse_canvas_time (.parseableT w none)
            = parse_canvas_time (.parseableT w (some 0)))
    ∧ parse_canvas_time .malformedT = .error () := by
  refine ⟨?_, ?_, rfl⟩
  · intro inp
    cases inp <;> simp [parse_canvas_time]
  · intro w
    refine ⟨?_, rfl⟩
    show Except.ok (some (w - (none : Option Int).getD 0)) = Except.ok (some w)
    norm_num

theorem claim_parse_time_contract_witness :
    parse_canvas_time (.parseableT 90 none) = .ok (some 90) :=
  (claim_parse_time_contract.2.1 90).1

/-- C9: the worked example, with instants in minutes from the epoch
2024-01-01T00:00Z.  The due timestamp 2024-03-01T07:00:00Z is minute
86820 with offset zero; parsing keeps that instant, whose local
America/Phoenix reading is minute 86400, that is 2024-03-01 00:00 local;
now is 2024-03-02T00:00:00 local, instant 88260; with no submission the
classification is DNF, and the time string of the due instant is
12:00 AM. -/
theorem claim_example_scenario :
    parse_canvas_time (.parseableT 86820 (some 0)) = .ok (some 86820)
    ∧ localWall cfgEx 86820 = 86400
    ∧ decide_status_from_submission none (some 86820) 88260 = "DNF"
    ∧ time_str cfgEx 86820 = "12:00 AM" := by
  refine ⟨rfl, by decide, by decide, by decide⟩

/-- C10: a persisted last-sync file whose content fails to parse yields no
watermark and no log line, the whole run behaves exactly as if the file
were missing, and with no watermark each course iteration skips the delta
pass entirely and runs only the full scan. -/
theorem claim_last_sync_malformed (mc : MainCtx) (inps : List CourseInput)
    (db : NotionDB) :
    load_last_sync (.present .malformedC) = (none, [])
    ∧ runMain mc (.present .malformedC) inps db = runMain mc .missing inps db
    ∧ (∀ (inp : CourseInput) (db' : NotionDB),
        runCourse mc none inp db'
          = match inp.course with
            | none => ⟨db', [], true⟩
            | some c =>
                match inp.assignmentsFetch with
                | .error _ => ⟨db', [], false⟩
                | .ok as => full_scan (courseCtx mc inp.cid c) as db') := by
  refine ⟨rfl, rfl, ?_⟩
  intro inp db'
  rcases inp with ⟨cid, course, afetch, dfetch⟩
  cases course with
  | none => rfl
  | some c =>
      cases afetch with
      | error u => cases u; rfl
      | ok as =>
          show (⟨(full_scan (courseCtx mc cid c) as db').db,
            [] ++ (full_scan (courseCtx mc cid c) as db').ops,
            (full_scan (courseCtx mc cid c) as db').ok⟩ : ScanResult) = _
          rw [List.nil_append]

theorem claim_last_sync_malformed_witness :
    load_last_sync (.present .malformedC) = (none, []) :=
  (claim_last_sync_malformed mcEx [] emptyDB).1
